import Mathlib

/-!
Verification of the unsmoothed maximum-likelihood character language model
(`train_char_lm`, `generate_letter`, `generate_text` from `MaxLikelihoodModel.ipynb`)
against its natural-language specification.

The Python data structures are embedded shallowly:
* a `collections.Counter` (insertion-ordered dict of char counts) is an
  association list `List (Char × Nat)`;
* the `defaultdict(Counter)` language model is `List (List Char × Counter)`;
* the normalized table is `List (List Char × List (Char × ℚ))`, with Python
  floats replaced by exact rationals;
* Python's `random()` draws are supplied explicitly as a stream `Nat → ℚ`;
* a `KeyError` and a fall-through `return None` are explicit result
  constructors.
-/

set_option autoImplicit false

namespace CharLM

abbrev Hist := List Char
abbrev Counter := List (Char × Nat)
abbrev Dist := List (Char × ℚ)
abbrev LM := List (Hist × Counter)
abbrev Table := List (Hist × Dist)

/-- Ordered-dict lookup: first entry whose key equals `k`, as in Python `d[k]`. -/
def assocGet {α β : Type} [DecidableEq α] : List (α × β) → α → Option β
  | [], _ => none
  | p :: rest, k => if p.1 = k then some p.2 else assocGet rest k

/-- `counter[c] += 1` on a `Counter`: update in place if present, else append
with count 1 (Python dicts preserve insertion order). -/
def incrCounter : Counter → Char → Counter
  | [], c => [(c, 1)]
  | p :: rest, c => if p.1 = c then (p.1, p.2 + 1) :: rest else p :: incrCounter rest c

/-- `lm[history][char] += 1` on a `defaultdict(Counter)`: auto-create an empty
counter for a missing history, then increment. -/
def incrLM : LM → Hist → Char → LM
  | [], h, c => [(h, incrCounter [] c)]
  | p :: rest, h, c =>
    if p.1 = h then (p.1, incrCounter p.2 c) :: rest else p :: incrLM rest h c

/-- Python slice `data[i:i+order]`. -/
def pySlice (data : List Char) (i order : Nat) : List Char := (data.drop i).take order

/-- Python index `data[i]` (total encoding; the default is never reached at
in-range indices, which are the only ones the code uses). -/
def charAt (data : List Char) (i : Nat) : Char := data.getD i '~'

/-- The loop body's event stream: for `i in range(len(data)-order)`, the pair
`(data[i:i+order], data[i+order])`. -/
def eventsOf (data : List Char) (order : Nat) : List (Hist × Char) :=
  (List.range (data.length - order)).map fun i =>
    (pySlice data i order, charAt data (i + order))

/-- The counting loop of `train_char_lm`: fold the increments left to right. -/
def buildLM (events : List (Hist × Char)) : LM :=
  events.foldl (fun m e => incrLM m e.1 e.2) []

/-- `normalize(counter)`: `s = sum(counter.values()); [(c, cnt/s) for c,cnt in counter.items()]`. -/
def normalize (counter : Counter) : Dist :=
  counter.map fun p => (p.1, (p.2 : ℚ) / (((counter.map fun q => q.2).sum : Nat) : ℚ))

/-- `train_char_lm`: pad with `order` copies of `'~'`, count transitions, then
normalize every history's counter. The file read is external corpus
acquisition; the corpus itself is the input here. -/
def train_char_lm (corpus : List Char) (order : Nat) : Table :=
  (buildLM (eventsOf (List.replicate order '~' ++ corpus) order)).map fun p =>
    (p.1, normalize p.2)

/-- Python slice `history[-order:]`. Note `-0 = 0`, so for `order = 0` this is
the whole string, otherwise the trailing `order` characters. -/
def sliceLast (s : List Char) (order : Nat) : List Char :=
  if order = 0 then s else s.drop (s.length - order)

/-- Outcome of one `generate_letter` call: a `KeyError` escape, a returned
character, or the loop falling through (Python returns `None`). -/
inductive LetterResult
  | keyError
  | letter (c : Char)
  | fellThrough
deriving DecidableEq

/-- The sampling loop of `generate_letter`:
`for c,v in dist: x = x - v; if x <= 0: return c` (falling through gives `None`). -/
def sample : Dist → ℚ → Option Char
  | [], _ => none
  | p :: rest, x => if x - p.2 ≤ 0 then some p.1 else sample rest (x - p.2)

/-- `generate_letter(lm, history, order)` with the uniform draw `x` made
explicit: truncate the history, look it up (raising `KeyError` on a miss,
before any draw), then run the sampling loop. -/
def generate_letter (lm : Table) (history : Hist) (order : Nat) (x : ℚ) : LetterResult :=
  match assocGet lm (sliceLast history order) with
  | none => LetterResult.keyError
  | some dist =>
    match sample dist x with
    | none => LetterResult.fellThrough
    | some c => LetterResult.letter c

/-- The loop of `generate_text`, returning the collected output together with
the final value of the `history` variable. `i` indexes the draw stream `rs`
(one `random()` call per successful letter); any `KeyError` or `None` letter
aborts the run (`none`), as the Python code raises there. -/
def genLoop (lm : Table) (order : Nat) (rs : Nat → ℚ) :
    Nat → Nat → Hist → Option (List Char × Hist)
  | 0, _, history => some ([], history)
  | n + 1, i, history =>
    match generate_letter lm history order (rs i) with
    | LetterResult.letter c =>
      match genLoop lm order rs n (i + 1) (sliceLast history order ++ [c]) with
      | some pr => some (c :: pr.1, pr.2)
      | none => none
    | _ => none

/-- `generate_text(lm, order, nletters)`: run the loop from a history of
`order` sentinels and join the output. -/
def generate_text (lm : Table) (order nletters : Nat) (rs : Nat → ℚ) :
    Option (List Char) :=
  (genLoop lm order rs nletters 0 (List.replicate order '~')).map fun pr => pr.1

/-- Reference count, following the spec's words: the number of positions `i`
of the padded stream with `order ≤ i < length` whose preceding
`order`-character window is `h` and whose character is `c`. -/
def specCount (corpus : List Char) (order : Nat) (h : Hist) (c : Char) : Nat :=
  (List.range (List.replicate order '~' ++ corpus).length).countP fun i =>
    decide (order ≤ i ∧
      pySlice (List.replicate order '~' ++ corpus) (i - order) order = h ∧
      charAt (List.replicate order '~' ++ corpus) i = c)

/-- Reference total for a history, following the spec's words: the number of
observed transitions out of `h`, i.e. positions `order ≤ i < length` whose
preceding window is `h`. -/
def specTotal (corpus : List Char) (order : Nat) (h : Hist) : Nat :=
  (List.range (List.replicate order '~' ++ corpus).length).countP fun i =>
    decide (order ≤ i ∧
      pySlice (List.replicate order '~' ++ corpus) (i - order) order = h)

/-- Reference characterization of the trained table, following the spec's
words: a history is present exactly when it has at least one observed
transition, and each present history maps to one pair per distinct observed
successor `c`, with probability `count / total`. -/
def SpecTable (corpus : List Char) (order : Nat) (t : Table) : Prop :=
  (∀ h : Hist, assocGet t h ≠ none ↔ 0 < specTotal corpus order h) ∧
  ∀ h l, assocGet t h = some l →
    (l.map Prod.fst).Nodup ∧
    ∀ c p, (c, p) ∈ l ↔
      0 < specCount corpus order h c ∧
        p = (specCount corpus order h c : ℚ) / (specTotal corpus order h : ℚ)

/-! ### Association-list lemmas -/

theorem assocGet_eq_none_iff {α β : Type} [DecidableEq α] (l : List (α × β)) (k : α) :
    assocGet l k = none ↔ k ∉ l.map Prod.fst := by
  induction l with
  | nil => simp [assocGet]
  | cons p rest ih =>
    simp only [assocGet, List.map_cons, List.mem_cons]
    split_ifs with hp
    · simp [hp]
    · rw [ih]
      constructor
      · intro h hk
        rcases hk with hk | hk
        · exact hp hk.symm
        · exact h hk
      · exact fun h hk => h (Or.inr hk)

theorem assocGet_mem {α β : Type} [DecidableEq α] {l : List (α × β)} {k : α} {v : β}
    (h : assocGet l k = some v) : (k, v) ∈ l := by
  induction l with
  | nil => simp [assocGet] at h
  | cons p rest ih =>
    simp only [assocGet] at h
    split_ifs at h with hp
    · injection h with h'
      simp [← hp, ← h']
    · exact List.mem_cons_of_mem _ (ih h)

theorem mem_iff_assocGet {α β : Type} [DecidableEq α] {l : List (α × β)}
    (hnd : (l.map Prod.fst).Nodup) (k : α) (v : β) :
    (k, v) ∈ l ↔ assocGet l k = some v := by
  induction l with
  | nil => simp [assocGet]
  | cons p rest ih =>
    simp only [List.map_cons, List.nodup_cons] at hnd
    simp only [assocGet, List.mem_cons]
    split_ifs with hp
    · constructor
      · rintro (h | h)
        · rw [← h]
        · exact absurd (hp ▸ List.mem_map_of_mem Prod.fst h) hnd.1
      · intro h
        injection h with h'
        left
        rw [← hp, ← h']
    · rw [ih hnd.2]
      constructor
      · rintro (h | h)
        · exact absurd (congrArg Prod.fst h).symm hp
        · exact h
      · exact fun h => Or.inr h

theorem assocGet_map_val {α β γ : Type} [DecidableEq α] (f : β → γ) (l : List (α × β)) (k : α) :
    assocGet (l.map fun p => (p.1, f p.2)) k = (assocGet l k).map f := by
  induction l with
  | nil => simp [assocGet]
  | cons p rest ih =>
    simp only [List.map_cons, assocGet]
    split_ifs <;> simp [ih]

/-! ### Counter lemmas -/

/-- Python `counter[c]` read on a `Counter`: 0 when the key is missing. -/
def ctrGet (ctr : Counter) (c : Char) : Nat := (assocGet ctr c).getD 0

theorem ctrGet_incrCounter (ctr : Counter) (c' c : Char) :
    ctrGet (incrCounter ctr c') c = ctrGet ctr c + if c' = c then 1 else 0 := by
  induction ctr with
  | nil =>
    by_cases h : c' = c <;> simp [incrCounter, ctrGet, assocGet, h]
  | cons p rest ih =>
    by_cases hp : p.1 = c'
    · by_cases hc : p.1 = c <;>
        simp_all [incrCounter, ctrGet, assocGet]
    · simp only [incrCounter, if_neg hp]
      by_cases hc : p.1 = c
      · have : ¬ c' = c := fun h => hp (h ▸ hc)
        simp [ctrGet, assocGet, hc, this]
      · simpa [ctrGet, assocGet, hc] using ih

theorem incrCounter_keys (ctr : Counter) (c : Char) :
    (incrCounter ctr c).map Prod.fst =
      if c ∈ ctr.map Prod.fst then ctr.map Prod.fst else ctr.map Prod.fst ++ [c] := by
  induction ctr with
  | nil => simp [incrCounter]
  | cons p rest ih =>
    by_cases hp : p.1 = c
    · simp [incrCounter, hp]
    · have : ¬ c = p.1 := fun h => hp h.symm
      simp only [incrCounter, if_neg hp, List.map_cons, List.mem_cons, this, false_or]
      rw [ih]
      split_ifs <;> simp

theorem incrCounter_nodup {ctr : Counter} (h : (ctr.map Prod.fst).Nodup) (c : Char) :
    ((incrCounter ctr c).map Prod.fst).Nodup := by
  rw [incrCounter_keys]
  split_ifs with hm
  · exact h
  · rw [List.nodup_append]
    refine ⟨h, List.nodup_singleton c, ?_⟩
    intro a ha hc
    rw [List.mem_singleton] at hc
    subst hc
    exact hm ha

theorem incrCounter_pos {ctr : Counter} (h : ∀ q ∈ ctr, 0 < q.2) (c : Char) :
    ∀ q ∈ incrCounter ctr c, 0 < q.2 := by
  induction ctr with
  | nil => simp [incrCounter]
  | cons p rest ih =>
    simp only [incrCounter]
    split_ifs with hp
    · intro q hq
      rcases List.mem_cons.mp hq with hq | hq
      · subst hq
        simp
      · exact h q (List.mem_cons_of_mem _ hq)
    · intro q hq
      rcases List.mem_cons.mp hq with hq | hq
      · subst hq
        exact h q (List.mem_cons_self _ _)
      · exact ih (fun q hq => h q (List.mem_cons_of_mem _ hq)) q hq

theorem incrCounter_sum (ctr : Counter) (c : Char) :
    ((incrCounter ctr c).map fun q => q.2).sum = ((ctr.map fun q => q.2).sum) + 1 := by
  induction ctr with
  | nil => simp [incrCounter]
  | cons p rest ih =>
    simp only [incrCounter]
    split_ifs with hp
    · simp [Nat.add_assoc, Nat.add_comm 1]
    · simp only [List.map_cons, List.sum_cons, ih]
      omega

theorem incrCounter_ne_nil (ctr : Counter) (c : Char) : incrCounter ctr c ≠ [] := by
  cases ctr with
  | nil => simp [incrCounter]
  | cons p rest =>
    simp only [incrCounter]
    split_ifs <;> simp

/-! ### Language-model (nested dict) lemmas -/

/-- The counter held for a history (`Counter()` when the history is absent,
matching `defaultdict` reads made only to be written back). -/
def lmCtr (lm : LM) (h : Hist) : Counter := (assocGet lm h).getD []

/-- Raw transition count recorded for `(h, c)`. -/
def lmCount (lm : LM) (h : Hist) (c : Char) : Nat := ctrGet (lmCtr lm h) c

/-- Sum of the raw counts recorded for history `h`. -/
def lmTotal (lm : LM) (h : Hist) : Nat := ((lmCtr lm h).map fun q => q.2).sum

theorem assocGet_incrLM (lm : LM) (h' : Hist) (c' : Char) (h : Hist) :
    assocGet (incrLM lm h' c') h =
      if h' = h then some (incrCounter (lmCtr lm h) c') else assocGet lm h := by
  induction lm with
  | nil =>
    by_cases hh : h' = h <;> simp [incrLM, assocGet, lmCtr, hh]
  | cons p rest ih =>
    by_cases hp : p.1 = h'
    · by_cases hh : h' = h
      · simp [incrLM, assocGet, hp, hh, lmCtr, hp ▸ hh]
      · have : ¬ p.1 = h := fun he => hh (hp ▸ he)
        simp [incrLM, assocGet, hp, hh, this]
    · simp only [incrLM, if_neg hp]
      by_cases hh : p.1 = h
      · have : ¬ h' = h := fun he => hp (hh.trans he.symm)
        simp [assocGet, hh, this]
      · have hctr : lmCtr (p :: rest) h = lmCtr rest h := by
          simp [lmCtr, assocGet, hh]
        rw [hctr]
        simpa [assocGet, hh] using ih

theorem lmCtr_incrLM (lm : LM) (h' : Hist) (c' : Char) (h : Hist) :
    lmCtr (incrLM lm h' c') h =
      if h' = h then incrCounter (lmCtr lm h) c' else lmCtr lm h := by
  unfold lmCtr
  rw [assocGet_incrLM]
  split_ifs <;> simp [lmCtr]

theorem lmCount_incrLM (lm : LM) (h' : Hist) (c' : Char) (h : Hist) (c : Char) :
    lmCount (incrLM lm h' c') h c =
      lmCount lm h c + if h' = h ∧ c' = c then 1 else 0 := by
  unfold lmCount
  rw [lmCtr_incrLM]
  by_cases hh : h' = h
  · rw [if_pos hh, ctrGet_incrCounter]
    by_cases hc : c' = c <;> simp [hh, hc]
  · simp [hh]

theorem lmTotal_incrLM (lm : LM) (h' : Hist) (c' : Char) (h : Hist) :
    lmTotal (incrLM lm h' c') h = lmTotal lm h + if h' = h then 1 else 0 := by
  unfold lmTotal
  rw [lmCtr_incrLM]
  split_ifs with hh
  · rw [incrCounter_sum]
  · simp

/-- The single step folded by `buildLM`. -/
def lmStep (m : LM) (e : Hist × Char) : LM := incrLM m e.1 e.2

theorem foldl_lmCount (events : List (Hist × Char)) (lm : LM) (h : Hist) (c : Char) :
    lmCount (events.foldl lmStep lm) h c =
      lmCount lm h c + events.countP (fun e => decide (e = (h, c))) := by
  induction events generalizing lm with
  | nil => simp
  | cons e es ih =>
    rw [List.foldl_cons, ih, List.countP_cons]
    unfold lmStep
    rw [lmCount_incrLM]
    by_cases he : e = (h, c)
    · have h1 : e.1 = h := congrArg Prod.fst he
      have h2 : e.2 = c := congrArg Prod.snd he
      simp [he, h1, h2]
      omega
    · have : ¬ (e.1 = h ∧ e.2 = c) := by
        intro hc
        exact he (Prod.ext hc.1 hc.2)
      simp [he, this]

theorem foldl_lmTotal (events : List (Hist × Char)) (lm : LM) (h : Hist) :
    lmTotal (events.foldl lmStep lm) h =
      lmTotal lm h + events.countP (fun e => decide (e.1 = h)) := by
  induction events generalizing lm with
  | nil => simp
  | cons e es ih =>
    rw [List.foldl_cons, ih, List.countP_cons]
    unfold lmStep
    rw [lmTotal_incrLM]
    by_cases he : e.1 = h
    · simp [he]
      omega
    · simp [he]

theorem foldl_get_none (events : List (Hist × Char)) (lm : LM) (h : Hist) :
    assocGet (events.foldl lmStep lm) h = none ↔
      assocGet lm h = none ∧ events.countP (fun e => decide (e.1 = h)) = 0 := by
  induction events generalizing lm with
  | nil => simp
  | cons e es ih =>
    rw [List.foldl_cons, ih, List.countP_cons]
    unfold lmStep
    rw [assocGet_incrLM]
    by_cases he : e.1 = h
    · simp [he]
    · simp [he]

/-! ### Structural invariants of the counting loop -/

/-- Every counter built by the loop has distinct keys, strictly positive
counts, and at least one entry. -/
def GoodLM (lm : LM) : Prop :=
  ∀ p ∈ lm, (p.2.map Prod.fst).Nodup ∧ (∀ q ∈ p.2, 0 < q.2) ∧ p.2 ≠ []

theorem goodLM_incrLM {lm : LM} (hg : GoodLM lm) (h : Hist) (c : Char) :
    GoodLM (incrLM lm h c) := by
  induction lm with
  | nil =>
    intro p hp
    simp only [incrLM] at hp
    rcases List.mem_singleton.mp hp with rfl
    refine ⟨?_, ?_, ?_⟩ <;> simp [incrCounter]
  | cons q rest ih =>
    simp only [incrLM]
    split_ifs with hq
    · intro p hp
      rcases List.mem_cons.mp hp with rfl | hp
      · obtain ⟨h1, h2, _⟩ := hg q (List.mem_cons_self _ _)
        exact ⟨incrCounter_nodup h1 c, incrCounter_pos h2 c, incrCounter_ne_nil _ c⟩
      · exact hg p (List.mem_cons_of_mem _ hp)
    · intro p hp
      rcases List.mem_cons.mp hp with rfl | hp
      · exact hg p (List.mem_cons_self _ _)
      · exact ih (fun r hr => hg r (List.mem_cons_of_mem _ hr)) p hp

theorem goodLM_foldl {lm : LM} (hg : GoodLM lm) (events : List (Hist × Char)) :
    GoodLM (events.foldl lmStep lm) := by
  induction events generalizing lm with
  | nil => exact hg
  | cons e es ih => exact ih (goodLM_incrLM hg e.1 e.2)

theorem goodLM_buildLM (events : List (Hist × Char)) : GoodLM (buildLM events) := by
  have : buildLM events = events.foldl lmStep [] := rfl
  rw [this]
  exact goodLM_foldl (by intro p hp; simp at hp) events

theorem ctr_mem_iff {ctr : Counter} (hnd : (ctr.map Prod.fst).Nodup)
    (hpos : ∀ q ∈ ctr, 0 < q.2) (c : Char) (n : Nat) :
    (c, n) ∈ ctr ↔ ctrGet ctr c = n ∧ 0 < n := by
  rw [mem_iff_assocGet hnd]
  constructor
  · intro hg
    have hmem := assocGet_mem hg
    refine ⟨by simp [ctrGet, hg], by simpa using hpos (c, n) hmem⟩
  · rintro ⟨hget, hn⟩
    unfold ctrGet at hget
    cases hag : assocGet ctr c with
    | none => rw [hag] at hget; simp at hget; omega
    | some m => rw [hag] at hget; simp at hget; rw [hget]

/-! ### Counting loop versus the spec's position counts -/

theorem countP_range_shift (ord m : Nat) (P : Nat → Bool) :
    (List.range (ord + m)).countP (fun i => decide (ord ≤ i) && P i) =
      (List.range m).countP (fun j => P (ord + j)) := by
  rw [List.range_add, List.countP_append, List.countP_map]
  have h1 : (List.range ord).countP (fun i => decide (ord ≤ i) && P i) = 0 := by
    rw [List.countP_eq_zero]
    intro i hi
    rcases List.mem_range.mp hi with hlt
    simp [Nat.not_le.mpr hlt]
  have h2 : (List.range m).countP ((fun i => decide (ord ≤ i) && P i) ∘ fun x => ord + x) =
      (List.range m).countP (fun j => P (ord + j)) := by
    apply List.countP_congr
    intro j _
    simp [Nat.le_add_right]
  rw [h1, h2, Nat.zero_add]

theorem events_countP_eq_specCount (corpus : List Char) (order : Nat) (h : Hist) (c : Char) :
    (eventsOf (List.replicate order '~' ++ corpus) order).countP
        (fun e => decide (e = (h, c))) = specCount corpus order h c := by
  set data := List.replicate order '~' ++ corpus with hdata
  have hlen : data.length = order + corpus.length := by
    simp [hdata]
  unfold specCount eventsOf
  rw [← hdata, hlen, Nat.add_sub_cancel_left]
  have hsplit : (List.range (order + corpus.length)).countP
      (fun i => decide (order ≤ i ∧ pySlice data (i - order) order = h ∧ charAt data i = c)) =
      (List.range (order + corpus.length)).countP
      (fun i => decide (order ≤ i) &&
        decide (pySlice data (i - order) order = h ∧ charAt data i = c)) := by
    apply List.countP_congr
    intro i _
    simp
  rw [hsplit, countP_range_shift, List.countP_map]
  apply List.countP_congr
  intro j _
  simp only [Function.comp, Nat.add_sub_cancel_left, Prod.mk.injEq, decide_eq_true_eq]
  rw [Nat.add_comm order j]

theorem events_countP_eq_specTotal (corpus : List Char) (order : Nat) (h : Hist) :
    (eventsOf (List.replicate order '~' ++ corpus) order).countP
        (fun e => decide (e.1 = h)) = specTotal corpus order h := by
  set data := List.replicate order '~' ++ corpus with hdata
  have hlen : data.length = order + corpus.length := by
    simp [hdata]
  unfold specTotal eventsOf
  rw [← hdata, hlen, Nat.add_sub_cancel_left]
  have hsplit : (List.range (order + corpus.length)).countP
      (fun i => decide (order ≤ i ∧ pySlice data (i - order) order = h)) =
      (List.range (order + corpus.length)).countP
      (fun i => decide (order ≤ i) && decide (pySlice data (i - order) order = h)) := by
    apply List.countP_congr
    intro i _
    simp
  rw [hsplit, countP_range_shift, List.countP_map]
  apply List.countP_congr
  intro j _
  simp only [Function.comp, Nat.add_sub_cancel_left, decide_eq_true_eq]

/-! ### Normalization lemmas -/

theorem normalize_keys (ctr : Counter) : (normalize ctr).map Prod.fst = ctr.map Prod.fst := by
  simp [normalize]

theorem mem_normalize (ctr : Counter) (c : Char) (p : ℚ) :
    (c, p) ∈ normalize ctr ↔
      ∃ n : Nat, (c, n) ∈ ctr ∧ p = (n : ℚ) / (((ctr.map fun q => q.2).sum : Nat) : ℚ) := by
  unfold normalize
  rw [List.mem_map]
  constructor
  · rintro ⟨q, hq, heq⟩
    rw [Prod.mk.injEq] at heq
    refine ⟨q.2, ?_, heq.2.symm⟩
    rw [← heq.1]
    simpa using hq
  · rintro ⟨n, hmem, rfl⟩
    exact ⟨(c, n), hmem, rfl⟩

theorem sum_map_cast_div (ctr : Counter) (s : ℚ) :
    (ctr.map fun q => ((q.2 : ℚ) / s)).sum = (((ctr.map fun q => q.2).sum : Nat) : ℚ) / s := by
  induction ctr with
  | nil => simp
  | cons p rest ih =>
    simp only [List.map_cons, List.sum_cons, ih]
    push_cast
    rw [add_div]

theorem normalize_sum {ctr : Counter} (hpos : 0 < (ctr.map fun q => q.2).sum) :
    ((normalize ctr).map fun q => q.2).sum = 1 := by
  unfold normalize
  rw [List.map_map]
  have hcomp : ((fun q : Char × ℚ => q.2) ∘ fun p : Char × Nat =>
      (p.1, (p.2 : ℚ) / (((ctr.map fun q => q.2).sum : Nat) : ℚ))) =
      fun p : Char × Nat => ((p.2 : ℚ) / (((ctr.map fun q => q.2).sum : Nat) : ℚ)) := rfl
  rw [hcomp, sum_map_cast_div]
  have hs : ((((ctr.map fun q => q.2).sum : Nat) : ℚ)) ≠ 0 := by
    have : (ctr.map fun q => q.2).sum ≠ 0 := Nat.pos_iff_ne_zero.mp hpos
    exact_mod_cast this
  exact div_self hs

/-! ### The trained table, characterized -/

theorem buildLM_eq_foldl (events : List (Hist × Char)) :
    buildLM events = events.foldl lmStep [] := rfl

theorem lmCount_buildLM (events : List (Hist × Char)) (h : Hist) (c : Char) :
    lmCount (buildLM events) h c = events.countP fun e => decide (e = (h, c)) := by
  rw [buildLM_eq_foldl, foldl_lmCount]
  simp [lmCount, lmCtr, ctrGet, assocGet]

theorem lmTotal_buildLM (events : List (Hist × Char)) (h : Hist) :
    lmTotal (buildLM events) h = events.countP fun e => decide (e.1 = h) := by
  rw [buildLM_eq_foldl, foldl_lmTotal]
  simp [lmTotal, lmCtr, assocGet]

theorem buildLM_get_none (events : List (Hist × Char)) (h : Hist) :
    assocGet (buildLM events) h = none ↔
      events.countP (fun e => decide (e.1 = h)) = 0 := by
  rw [buildLM_eq_foldl, foldl_get_none]
  simp [assocGet]

theorem assocGet_train (corpus : List Char) (order : Nat) (h : Hist) :
    assocGet (train_char_lm corpus order) h =
      (assocGet (buildLM (eventsOf (List.replicate order '~' ++ corpus) order)) h).map
        normalize := by
  unfold train_char_lm
  exact assocGet_map_val normalize _ h

theorem train_empty (order : Nat) : train_char_lm [] order = [] := by
  simp [train_char_lm, eventsOf, buildLM]

theorem train_get_none_iff (corpus : List Char) (order : Nat) (h : Hist) :
    assocGet (train_char_lm corpus order) h = none ↔ specTotal corpus order h = 0 := by
  rw [assocGet_train, Option.map_eq_none', buildLM_get_none, events_countP_eq_specTotal]

/-- C1: for every corpus and every order ≥ 1, the table returned by
`train_char_lm` agrees with the spec's count-and-normalize reference
(`SpecTable`): a history is a key exactly when it has at least one observed
transition in the `'~'`-padded stream, each key maps to one pair per distinct
observed successor with probability `count / total-count-for-that-history`,
and an empty corpus yields an empty table. -/
theorem c1_train_matches_spec (corpus : List Char) (order : Nat) (horder : 1 ≤ order) :
    SpecTable corpus order (train_char_lm corpus order) ∧
      train_char_lm [] order = [] := by
  refine ⟨⟨?_, ?_⟩, train_empty order⟩
  · intro h
    rw [Ne, train_get_none_iff]
    exact Nat.pos_iff_ne_zero.symm
  · intro h l hl
    rw [assocGet_train] at hl
    rcases Option.map_eq_some'.mp hl with ⟨ctr, hctr, rfl⟩
    obtain ⟨hnd, hposc, hnn⟩ := goodLM_buildLM _ (h, ctr) (assocGet_mem hctr)
    have hctrEq :
        lmCtr (buildLM (eventsOf (List.replicate order '~' ++ corpus) order)) h = ctr := by
      simp [lmCtr, hctr]
    have hcnt : ∀ c, ctrGet ctr c = specCount corpus order h c := by
      intro c
      rw [← events_countP_eq_specCount, ← lmCount_buildLM]
      simp [lmCount, hctrEq]
    have htot : (ctr.map fun q => q.2).sum = specTotal corpus order h := by
      rw [← events_countP_eq_specTotal, ← lmTotal_buildLM]
      simp [lmTotal, hctrEq]
    refine ⟨by rw [normalize_keys]; exact hnd, ?_⟩
    intro c p
    rw [mem_normalize]
    constructor
    · rintro ⟨n, hmem, rfl⟩
      rcases (ctr_mem_iff hnd hposc c n).mp hmem with ⟨hg, hpos⟩
      have hn : n = specCount corpus order h c := by rw [← hcnt c, hg]
      subst hn
      exact ⟨hpos, by rw [htot]⟩
    · rintro ⟨hpos, rfl⟩
      refine ⟨specCount corpus order h c, ?_, by rw [htot]⟩
      exact (ctr_mem_iff hnd hposc c _).mpr ⟨hcnt c, hpos⟩

/-- Witness for C1 at corpus "ab", order 1. -/
theorem c1_witness :
    1 ≤ 1 ∧ (SpecTable ['a', 'b'] 1 (train_char_lm ['a', 'b'] 1) ∧
      train_char_lm [] 1 = []) :=
  ⟨le_refl 1, c1_train_matches_spec ['a', 'b'] 1 (le_refl 1)⟩

/-- C2: in every trained table (order ≥ 1), every present history's pair list
is non-empty, every probability lies in [0, 1], and the probabilities sum to
exactly 1 (hence within any epsilon, in particular 1e-9, of 1.0). -/
theorem c2_distribution_invariants (corpus : List Char) (order : Nat)
    (horder : 1 ≤ order) (h : Hist) (l : Dist)
    (hl : assocGet (train_char_lm corpus order) h = some l) :
    l ≠ [] ∧ (∀ q ∈ l, 0 ≤ q.2 ∧ q.2 ≤ 1) ∧ (l.map fun q => q.2).sum = 1 := by
  rw [assocGet_train] at hl
  rcases Option.map_eq_some'.mp hl with ⟨ctr, hctr, rfl⟩
  obtain ⟨hnd, hposc, hnn⟩ := goodLM_buildLM _ (h, ctr) (assocGet_mem hctr)
  have hspos : 0 < (ctr.map fun q => q.2).sum := by
    cases ctr with
    | nil => exact absurd rfl hnn
    | cons q rest =>
      have := hposc q (List.mem_cons_self _ _)
      simp only [List.map_cons, List.sum_cons]
      omega
  have hscast : (0 : ℚ) < (((ctr.map fun q => q.2).sum : Nat) : ℚ) := by
    exact_mod_cast hspos
  refine ⟨by simp [normalize, hnn], ?_, normalize_sum hspos⟩
  intro q hq
  have hq' : (q.1, q.2) ∈ normalize ctr := by simpa using hq
  rcases (mem_normalize ctr q.1 q.2).mp hq' with ⟨n, hmem, heq⟩
  have hle : n ≤ (ctr.map fun q => q.2).sum := by
    refine List.single_le_sum (by simp) n ?_
    exact List.mem_map_of_mem (fun q => q.2) hmem
  constructor
  · rw [heq]
    exact div_nonneg (by positivity) (le_of_lt hscast)
  · rw [heq, div_le_one hscast]
    exact_mod_cast hle

/-- Witness for C2 at corpus "a", order 1, history "~". -/
theorem c2_witness :
    1 ≤ 1 ∧ (([('a', (1 : ℚ))] : Dist) ≠ [] ∧
      (∀ q ∈ ([('a', (1 : ℚ))] : Dist), 0 ≤ q.2 ∧ q.2 ≤ 1) ∧
      (([('a', (1 : ℚ))] : Dist).map fun q => q.2).sum = 1) :=
  ⟨le_refl 1, c2_distribution_invariants ['a'] 1 (le_refl 1) ['~'] [('a', 1)] (by
    norm_num [train_char_lm, eventsOf, buildLM, lmStep, incrLM, incrCounter, normalize,
      assocGet, pySlice, charAt, List.range_succ])⟩

/-- C9: normalization is scale-invariant: multiplying every raw count of a
non-empty counter by any positive constant (in particular two) before
normalizing yields the same (character, probability) pairs. -/
theorem c9_normalize_scale_invariant (ctr : Counter) (k : Nat)
    (hne : ctr ≠ []) (hpos : ∀ q ∈ ctr, 0 < q.2) (hk : 0 < k) :
    normalize (ctr.map fun q => (q.1, k * q.2)) = normalize ctr := by
  have hsum : ((ctr.map fun q => (q.1, k * q.2)).map fun q => q.2).sum =
      k * (ctr.map fun q => q.2).sum := by
    rw [List.map_map]
    have hcomp : ((fun q : Char × Nat => q.2) ∘ fun q : Char × Nat => (q.1, k * q.2)) =
        fun q : Char × Nat => k * q.2 := rfl
    rw [hcomp, ← List.sum_map_mul_left]
  unfold normalize
  rw [List.map_map, hsum]
  apply List.map_congr_left
  intro q _
  simp only [Function.comp]
  congr 1
  push_cast
  rw [mul_div_mul_left]
  exact_mod_cast hk.ne'

/-- Witness for C9 at the counter [('a', 1), ('b', 3)] and factor 2. -/
theorem c9_witness :
    ([('a', 1), ('b', 3)] : Counter) ≠ [] ∧
      (∀ q ∈ ([('a', 1), ('b', 3)] : Counter), 0 < q.2) ∧ 0 < 2 ∧
      normalize (([('a', 1), ('b', 3)] : Counter).map fun q => (q.1, 2 * q.2)) =
        normalize [('a', 1), ('b', 3)] :=
  ⟨by decide, by decide, by decide,
    c9_normalize_scale_invariant [('a', 1), ('b', 3)] 2 (by decide) (by decide) (by decide)⟩

/-- C4: when the trailing window the code looks up is not a key of the table,
`generate_letter` escapes with the `KeyError` outcome rather than returning a
character; no fallback distribution is consulted. -/
theorem c4_unseen_history_keyerror (lm : Table) (history : Hist) (order : Nat) (x : ℚ)
    (horder : 1 ≤ order)
    (hmiss : assocGet lm (sliceLast history order) = none) :
    generate_letter lm history order x = LetterResult.keyError := by
  unfold generate_letter
  rw [hmiss]

/-- Witness for C4 at the empty table and history "a". -/
theorem c4_witness :
    1 ≤ 1 ∧ assocGet ([] : Table) (sliceLast ['a'] 1) = none ∧
      generate_letter [] ['a'] 1 0 = LetterResult.keyError :=
  ⟨le_refl 1, rfl, c4_unseen_history_keyerror [] ['a'] 1 0 (le_refl 1) rfl⟩

theorem sliceLast_length {s : List Char} {order : Nat} (h0 : order ≠ 0)
    (hlen : order ≤ s.length) : (sliceLast s order).length = order := by
  simp only [sliceLast, if_neg h0, List.length_drop]
  omega

theorem sliceLast_of_length_le {s : List Char} {order : Nat} (h : s.length ≤ order) :
    sliceLast s order = s := by
  unfold sliceLast
  split_ifs with h0
  · rfl
  · rw [Nat.sub_eq_zero_of_le h, List.drop_zero]

theorem sliceLast_idem (s : List Char) (order : Nat) (hlen : order ≤ s.length) :
    sliceLast (sliceLast s order) order = sliceLast s order := by
  by_cases h0 : order = 0
  · simp [sliceLast, h0]
  · exact sliceLast_of_length_le (le_of_eq (sliceLast_length h0 hlen))

/-- C10: a sampling step depends only on the trailing `order`-character
window of the history: `generate_letter` on any history of length ≥ order
agrees with `generate_letter` on just that window. -/
theorem c10_letter_uses_trailing_window (lm : Table) (history : Hist) (order : Nat)
    (x : ℚ) (horder : 1 ≤ order) (hlen : order ≤ history.length) :
    generate_letter lm history order x =
      generate_letter lm (sliceLast history order) order x := by
  unfold generate_letter
  rw [sliceLast_idem history order hlen]

/-- Witness for C10 at a two-character history and order 1. -/
theorem c10_witness :
    1 ≤ 1 ∧ 1 ≤ (['a', 'b'] : Hist).length ∧
      generate_letter [(['b'], [('c', (1 : ℚ))])] ['a', 'b'] 1 0 =
        generate_letter [(['b'], [('c', (1 : ℚ))])] (sliceLast ['a', 'b'] 1) 1 0 :=
  ⟨le_refl 1, by decide,
    c10_letter_uses_trailing_window [(['b'], [('c', 1)])] ['a', 'b'] 1 0 (le_refl 1)
      (by decide)⟩

theorem sample_none_of_sum_lt {dist : Dist} {x : ℚ}
    (hnn : ∀ q ∈ dist, 0 ≤ q.2) (hlt : (dist.map fun q => q.2).sum < x) :
    sample dist x = none := by
  induction dist generalizing x with
  | nil => rfl
  | cons q rest ih =>
    simp only [List.map_cons, List.sum_cons] at hlt
    have hrnn : ∀ r ∈ rest, 0 ≤ r.2 := fun r hr => hnn r (List.mem_cons_of_mem _ hr)
    have hr0 : 0 ≤ (rest.map fun q => q.2).sum := by
      apply List.sum_nonneg
      intro y hy
      rcases List.mem_map.mp hy with ⟨r, hr, rfl⟩
      exact hrnn r hr
    have hq : ¬ (x - q.2 ≤ 0) := by
      push_neg
      linarith
    simp only [sample, if_neg hq]
    exact ih hrnn (by linarith)

/-- C7 counterexample: with the one-pair distribution [('a', 1/2)] and draw
3/4 (probabilities sum to 1/2 < 3/4, so the running value never reaches ≤ 0),
`generate_letter` falls through and returns Python `None`, not the last
pair's character 'a' as the claim states. -/
theorem c7_counterexample :
    generate_letter [(['~'], [('a', (1 : ℚ)/2)])] ['~'] 1 (3/4) =
        LetterResult.fellThrough ∧
      LetterResult.fellThrough ≠ LetterResult.letter 'a' := by
  constructor
  · norm_num [generate_letter, sliceLast, assocGet, sample]
  · decide

/-- C7 (amended): for a non-empty looked-up distribution with non-negative
probabilities summing to less than the drawn `x`, `generate_letter` falls
through the sampling loop and returns Python `None` (no character); there is
no last-pair fallback in the code. -/
theorem c7_exhaustion_returns_none (lm : Table) (history : Hist) (order : Nat)
    (x : ℚ) (dist : Dist)
    (hget : assocGet lm (sliceLast history order) = some dist)
    (hne : dist ≠ []) (hnn : ∀ q ∈ dist, 0 ≤ q.2)
    (hlt : (dist.map fun q => q.2).sum < x) :
    generate_letter lm history order x = LetterResult.fellThrough := by
  unfold generate_letter
  simp only [hget, sample_none_of_sum_lt hnn hlt]

/-- Witness for C7 (amended) at distribution [('a', 1/2)] and draw 7/8. -/
theorem c7_witness :
    assocGet [(['~'], [('a', (1 : ℚ)/2)])] (sliceLast ['~'] 1) =
        some [('a', (1 : ℚ)/2)] ∧
      ([('a', (1 : ℚ)/2)] : Dist) ≠ [] ∧
      (∀ q ∈ ([('a', (1 : ℚ)/2)] : Dist), 0 ≤ q.2) ∧
      (([('a', (1 : ℚ)/2)] : Dist).map fun q => q.2).sum < 7/8 ∧
      generate_letter [(['~'], [('a', (1 : ℚ)/2)])] ['~'] 1 (7/8) =
        LetterResult.fellThrough :=
  ⟨by norm_num [assocGet, sliceLast], by simp, by norm_num, by norm_num,
    c7_exhaustion_returns_none [(['~'], [('a', (1 : ℚ)/2)])] ['~'] 1 (7/8)
      [('a', (1 : ℚ)/2)] (by norm_num [assocGet, sliceLast]) (by simp) (by norm_num)
      (by norm_num)⟩

/-- C5 counterexample: order 0 < 1 is not rejected by `train_char_lm`:
training on "a" at order 0 returns the normal table {"" : [('a', 1)]} rather
than failing with an invalid-argument condition. -/
theorem c5_counterexample :
    train_char_lm ['a'] 0 = [([], [('a', 1)])] := by
  norm_num [train_char_lm, eventsOf, buildLM, lmStep, incrLM, incrCounter, normalize,
    assocGet, pySlice, charAt, List.range_succ]

/-- C5 (amended): `train_char_lm` performs no validation of `order`: for
`order = 0` it returns a normal table (keyed by the empty history whenever
the corpus is non-empty), and for every order it does not fail on an empty
corpus, returning the empty table. -/
theorem c5_no_order_validation (order : Nat) (corpus : List Char) :
    train_char_lm [] order = [] ∧
      (corpus ≠ [] → assocGet (train_char_lm corpus 0) [] ≠ none) := by
  refine ⟨train_empty order, ?_⟩
  intro hne
  rw [Ne, train_get_none_iff]
  have hlen : specTotal corpus 0 [] = corpus.length := by
    unfold specTotal
    simp [pySlice]
  rw [hlen]
  intro h0
  exact hne (List.length_eq_zero.mp h0)

/-- Witness for C5 (amended) at order 3 and corpus "a". -/
theorem c5_witness :
    (['a'] : List Char) ≠ [] ∧ assocGet (train_char_lm ['a'] 0) [] ≠ none :=
  ⟨by decide, (c5_no_order_validation 3 ['a']).2 (by decide)⟩

theorem sample_mem {dist : Dist} {x : ℚ} {c : Char} (h : sample dist x = some c) :
    ∃ v, (c, v) ∈ dist := by
  induction dist generalizing x with
  | nil => simp [sample] at h
  | cons q rest ih =>
    simp only [sample] at h
    split_ifs at h with hq
    · injection h with h'
      refine ⟨q.2, ?_⟩
      rw [← h']
      simp
    · rcases ih h with ⟨v, hv⟩
      exact ⟨v, List.mem_cons_of_mem _ hv⟩

theorem sample_some_of_le {dist : Dist} {x : ℚ} (hne : dist ≠ [])
    (hle : x ≤ (dist.map fun q => q.2).sum) : ∃ c, sample dist x = some c := by
  induction dist generalizing x with
  | nil => exact absurd rfl hne
  | cons q rest ih =>
    simp only [List.map_cons, List.sum_cons] at hle
    by_cases hq : x - q.2 ≤ 0
    · exact ⟨q.1, by simp [sample, hq]⟩
    · cases rest with
      | nil =>
        exfalso
        simp only [List.map_nil, List.sum_nil, add_zero] at hle
        exact hq (by linarith)
      | cons r rs =>
        have hle' : x - q.2 ≤ ((r :: rs).map fun q => q.2).sum := by
          simp only [List.map_cons, List.sum_cons] at hle ⊢
          linarith
        rcases ih (by simp) hle' with ⟨c, hc⟩
        refine ⟨c, ?_⟩
        simp only [sample, if_neg hq]
        exact hc

theorem genLoop_congr (lm : Table) (order : Nat) (rs rs' : Nat → ℚ) :
    ∀ (n i : Nat) (history : Hist), (∀ j, i ≤ j → j < i + n → rs j = rs' j) →
      genLoop lm order rs n i history = genLoop lm order rs' n i history := by
  intro n
  induction n with
  | zero => intro i history _; rfl
  | succ m ih =>
    intro i history hagree
    simp only [genLoop]
    rw [hagree i (le_refl i) (by omega)]
    cases generate_letter lm history order (rs' i) with
    | letter c =>
      dsimp only
      rw [ih (i + 1) (sliceLast history order ++ [c])
        (fun j hj1 hj2 => hagree j (by omega) (by omega))]
    | keyError => rfl
    | fellThrough => rfl

theorem genLoop_success (lm : Table) (order : Nat) (rs : Nat → ℚ)
    (horder : 1 ≤ order)
    (hsum : ∀ p ∈ lm, 1 ≤ (p.2.map fun q => q.2).sum)
    (hdraw : ∀ j, rs j < 1)
    (hclosed : ∀ p ∈ lm, ∀ q ∈ p.2, assocGet lm (sliceLast (p.1 ++ [q.1]) order) ≠ none) :
    ∀ (n i : Nat) (history : Hist), order ≤ history.length →
      assocGet lm (sliceLast history order) ≠ none →
      ∃ out hfin, genLoop lm order rs n i history = some (out, hfin) ∧ out.length = n := by
  intro n
  induction n with
  | zero => exact fun i history _ _ => ⟨[], history, rfl, rfl⟩
  | succ m ih =>
    intro i history hlen hpresent
    cases hget : assocGet lm (sliceLast history order) with
    | none => exact absurd hget hpresent
    | some dist =>
      have hmem : (sliceLast history order, dist) ∈ lm := assocGet_mem hget
      have hdist_sum := hsum _ hmem
      have hdist_ne : dist ≠ [] := by
        intro hnil
        rw [hnil] at hdist_sum
        simp at hdist_sum
        linarith
      rcases sample_some_of_le hdist_ne (le_of_lt (lt_of_lt_of_le (hdraw i) hdist_sum))
        with ⟨c, hc⟩
      rcases sample_mem hc with ⟨v, hv⟩
      have hwlen : (sliceLast history order).length = order :=
        sliceLast_length (by omega) hlen
      have hnext_len : order ≤ (sliceLast history order ++ [c]).length := by
        simp [hwlen]
      have hnext_present :
          assocGet lm (sliceLast (sliceLast history order ++ [c]) order) ≠ none :=
        hclosed _ hmem (c, v) hv
      rcases ih (i + 1) (sliceLast history order ++ [c]) hnext_len hnext_present
        with ⟨out, hfin, hrun, hout⟩
      refine ⟨c :: out, hfin, ?_, by simp [hout]⟩
      simp only [genLoop, generate_letter, hget, hc, hrun]

/-- C3 counterexample: the table mapping history "~" to the single pair
('a', 1/2) is defined at the only history ever looked up, yet generating
K = 1 character with draw 3/4 aborts (the sampling loop falls through and the
Python code then raises a TypeError) instead of returning one character. -/
theorem c3_counterexample :
    assocGet [(['~'], [('a', (1 : ℚ)/2)])] (sliceLast (List.replicate 1 '~') 1) ≠
        none ∧
      generate_text [(['~'], [('a', (1 : ℚ)/2)])] 1 1 (fun _ => 3/4) = none := by
  constructor
  · simp [assocGet, sliceLast]
  · norm_num [generate_text, genLoop, generate_letter, sliceLast, assocGet, sample]

/-- C3 (amended): for every order ≥ 1 and K ≥ 0, `generate_text` returns
exactly K characters, consuming one draw per character (the output depends
only on the first K draws, and K = 0 returns the empty sequence), provided
every history looked up is present in the table — viz. the initial sentinel
window is a key and appending any distribution character to a key's window
again gives a key — and, in addition (which the original claim omits), every
distribution in the table has probabilities summing to at least 1 and every
draw is below 1, so that the sampling loop cannot fall through. -/
theorem c3_generate_text_length (lm : Table) (order K : Nat) (rs : Nat → ℚ)
    (horder : 1 ≤ order)
    (hsum : ∀ p ∈ lm, 1 ≤ (p.2.map fun q => q.2).sum)
    (hdraw : ∀ j, rs j < 1)
    (hinit : assocGet lm (List.replicate order '~') ≠ none)
    (hclosed : ∀ p ∈ lm, ∀ q ∈ p.2, assocGet lm (sliceLast (p.1 ++ [q.1]) order) ≠ none) :
    (∃ out, generate_text lm order K rs = some out ∧ out.length = K) ∧
      ∀ rs' : Nat → ℚ, (∀ j, j < K → rs' j = rs j) →
        generate_text lm order K rs' = generate_text lm order K rs := by
  constructor
  · have hlen : order ≤ (List.replicate order '~').length := by simp
    have hwin : assocGet lm (sliceLast (List.replicate order '~') order) ≠ none := by
      rw [sliceLast_of_length_le (by simp)]
      exact hinit
    rcases genLoop_success lm order rs horder hsum hdraw hclosed K 0
      (List.replicate order '~') hlen hwin with ⟨out, hfin, hrun, hout⟩
    exact ⟨out, by simp [generate_text, hrun], hout⟩
  · intro rs' hagree
    unfold generate_text
    rw [genLoop_congr lm order rs' rs K 0 (List.replicate order '~')
      (fun j hj1 hj2 => hagree j (by omega))]

/-- Witness for C3 (amended) at a closed two-key table, order 1, K = 2. -/
theorem c3_witness :
    (∃ out, generate_text [(['~'], [('a', (1 : ℚ))]), (['a'], [('a', (1 : ℚ))])] 1 2
        (fun _ => 1/2) = some out ∧ out.length = 2) ∧
      ∀ rs' : Nat → ℚ, (∀ j, j < 2 → rs' j = (fun _ => (1 : ℚ)/2) j) →
        generate_text [(['~'], [('a', (1 : ℚ))]), (['a'], [('a', (1 : ℚ))])] 1 2 rs' =
          generate_text [(['~'], [('a', (1 : ℚ))]), (['a'], [('a', (1 : ℚ))])] 1 2
            (fun _ => 1/2) :=
  c3_generate_text_length [(['~'], [('a', (1 : ℚ))]), (['a'], [('a', (1 : ℚ))])] 1 2
    (fun _ => 1/2) (le_refl 1) (by norm_num) (by intro j; norm_num)
    (by decide) (by decide)

theorem genLoop_zero (lm : Table) (order : Nat) (rs : Nat → ℚ) (i : Nat)
    (history : Hist) : genLoop lm order rs 0 i history = some ([], history) := rfl

theorem genLoop_succ (lm : Table) (order : Nat) (rs : Nat → ℚ) (n i : Nat)
    (history : Hist) :
    genLoop lm order rs (n + 1) i history =
      match generate_letter lm history order (rs i) with
      | LetterResult.letter c =>
        match genLoop lm order rs n (i + 1) (sliceLast history order ++ [c]) with
        | some pr => some (c :: pr.1, pr.2)
        | none => none
      | _ => none := rfl

/-- C6 counterexample: generating one character at order 1 from the table
{"~": [('a', 1)], "a": [('a', 1)]} leaves the history variable equal to "~a",
whose length 2 is not the claimed order = 1. -/
theorem c6_counterexample :
    genLoop [(['~'], [('a', (1 : ℚ))]), (['a'], [('a', (1 : ℚ))])] 1 (fun _ => 1/2) 1 0
        (List.replicate 1 '~') = some (['a'], ['~', 'a']) ∧
      (['~', 'a'] : Hist).length ≠ 1 := by
  constructor
  · norm_num [genLoop, generate_letter, sliceLast, assocGet, sample]
  · decide

theorem genLoop_final_history_length (lm : Table) (order : Nat) (rs : Nat → ℚ)
    (horder : 1 ≤ order) :
    ∀ (n i : Nat) (history : Hist) (out : List Char) (hfin : Hist),
      order ≤ history.length →
      genLoop lm order rs (n + 1) i history = some (out, hfin) →
      hfin.length = order + 1 := by
  intro n
  induction n with
  | zero =>
    intro i history out hfin hlen hrun
    rw [genLoop_succ] at hrun
    cases hg : generate_letter lm history order (rs i) with
    | letter c =>
      rw [hg] at hrun
      simp only [genLoop_zero, Option.some.injEq, Prod.mk.injEq] at hrun
      rw [← hrun.2]
      simp [List.length_append, sliceLast_length (show order ≠ 0 by omega) hlen]
    | keyError => rw [hg] at hrun; simp at hrun
    | fellThrough => rw [hg] at hrun; simp at hrun
  | succ m ih =>
    intro i history out hfin hlen hrun
    rw [genLoop_succ] at hrun
    cases hg : generate_letter lm history order (rs i) with
    | letter c =>
      rw [hg] at hrun
      dsimp only at hrun
      cases hrec : genLoop lm order rs (m + 1) (i + 1) (sliceLast history order ++ [c]) with
      | none => rw [hrec] at hrun; simp at hrun
      | some pr =>
        rw [hrec] at hrun
        simp only [Option.some.injEq, Prod.mk.injEq] at hrun
        have hlen' : order ≤ (sliceLast history order ++ [c]).length := by
          simp [List.length_append, sliceLast_length (show order ≠ 0 by omega) hlen]
        rw [← hrun.2]
        exact ih (i + 1) (sliceLast history order ++ [c]) pr.1 pr.2 hlen'
          (by rw [hrec])
    | keyError => rw [hg] at hrun; simp at hrun
    | fellThrough => rw [hg] at hrun; simp at hrun

/-- C6 (amended): after every iteration of the generation loop the rolling
history variable has length order + 1, not order: the update appends the
chosen character to the trailing `order`-character window, and the oldest
character is only dropped at the start of the next lookup / update (inside
`generate_letter`'s truncation), so lookups still use exactly `order`
characters. Stated for the run of any K ≥ 1 iterations from the initial
sentinel buffer: its final history has length order + 1 (iteration j's
post-history is the final history of the j-iteration run). -/
theorem c6_history_buffer_length (lm : Table) (order K : Nat) (rs : Nat → ℚ)
    (out : List Char) (hfin : Hist) (horder : 1 ≤ order) (hK : 1 ≤ K)
    (hrun : genLoop lm order rs K 0 (List.replicate order '~') = some (out, hfin)) :
    hfin.length = order + 1 := by
  obtain ⟨n, rfl⟩ : ∃ n, K = n + 1 := ⟨K - 1, by omega⟩
  exact genLoop_final_history_length lm order rs horder n 0 (List.replicate order '~')
    out hfin (by simp) hrun

/-- Witness for C6 (amended) at the concrete one-step run of the C6 table. -/
theorem c6_witness :
    1 ≤ 1 ∧ (['~', 'a'] : Hist).length = 1 + 1 :=
  ⟨le_refl 1,
    c6_history_buffer_length [(['~'], [('a', (1 : ℚ))]), (['a'], [('a', (1 : ℚ))])] 1 1
      (fun _ => 1/2) ['a'] ['~', 'a'] (le_refl 1) (le_refl 1)
      (by norm_num [genLoop, generate_letter, sliceLast, assocGet, sample])⟩

/-- C8: generation is deterministic in its inputs: for a fixed corpus, fixed
order, and a fixed recorded sequence of uniform draws (two sources agreeing
on the K draws a K-character run consumes), two runs of `generate_text` over
the trained table produce exactly the same output. -/
theorem c8_generation_deterministic (corpus : List Char) (order K : Nat)
    (rs rs' : Nat → ℚ) (hagree : ∀ j, j < K → rs j = rs' j) :
    generate_text (train_char_lm corpus order) order K rs =
      generate_text (train_char_lm corpus order) order K rs' := by
  unfold generate_text
  rw [genLoop_congr (train_char_lm corpus order) order rs rs' K 0
    (List.replicate order '~') (fun j hj1 hj2 => hagree j (by omega))]

/-- Witness for C8 at corpus "a", order 1, K = 1, and two equal recorded
draw sequences. -/
theorem c8_witness :
    (∀ j, j < 1 → (fun _ => (0 : ℚ)) j = (fun _ => (0 : ℚ)) j) ∧
      generate_text (train_char_lm ['a'] 1) 1 1 (fun _ => 0) =
        generate_text (train_char_lm ['a'] 1) 1 1 (fun _ => 0) :=
  ⟨fun j _ => rfl, c8_generation_deterministic ['a'] 1 1 (fun _ => 0) (fun _ => 0)
    (fun j _ => rfl)⟩

end CharLM
